import Mathlib

/-!
# Verification of the huff-rs code generator (`huff_codegen`)

A shallow embedding of `src/huff_codegen/src/lib.rs` (commit as provided).
The supporting crate `huff_utils` (AST node types, `to_irbytecode` lowering,
`bytes32_to_string`, `pad_n_bytes`, the opcode table, the artifact record) is
not part of the provided sources; those parts are modelled from the
specification and are marked `Modelled from the spec:` in their doc comments.

Representation conventions:
* Rust `Vec` stacks that are only pushed/popped/truncated at their *end*
  (`scope`, `mis`, `jump_tables`) are modelled head-first: Rust `push` is
  `cons`, Rust `last()` is `head?`, Rust `v[..v.len()-1]` is `tail`.
  The emitted fragment list `final_bytes` keeps natural (emission) order.
* Rust `usize` arithmetic is `Nat` (no overflow is reachable for the
  quantities involved; Rust would panic on overflow in debug mode anyway).
* In-flight bytecode fragments are hex `String`s, as in the source.
* Divergence of the recursive expander (macro self-invocation) is made total
  with an explicit fuel parameter; exhaustion is the distinct
  `RunError.outOfFuel` outcome.  A Rust panic (`unwrap` on `None`) is the
  distinct `RunError.panicked` outcome; both bypass the `CodegenError` type.
-/

/-- Hex digit character for a value `0 ≤ d < 16` (lowercase, as `hex::encode`
and Rust's `{:x}` formatting produce). -/
def hexChar (d : Nat) : Char :=
  match d with
  | 0 => '0' | 1 => '1' | 2 => '2' | 3 => '3'
  | 4 => '4' | 5 => '5' | 6 => '6' | 7 => '7'
  | 8 => '8' | 9 => '9' | 10 => 'a' | 11 => 'b'
  | 12 => 'c' | 13 => 'd' | 14 => 'e' | _ => 'f'

/-- Numeric value of a hex digit character (inverse of `hexChar`). -/
def hexCharVal (c : Char) : Nat :=
  match c with
  | '0' => 0 | '1' => 1 | '2' => 2 | '3' => 3
  | '4' => 4 | '5' => 5 | '6' => 6 | '7' => 7
  | '8' => 8 | '9' => 9 | 'a' => 10 | 'b' => 11
  | 'c' => 12 | 'd' => 13 | 'e' => 14 | 'f' => 15
  | _ => 0

/-- Big-endian base-`b` digits of `n`, with an explicit fuel argument so the
definition is structural (the fuel `n` itself is always sufficient). -/
def digitsCore (b : Nat) : Nat → Nat → List Nat
  | 0, _ => []
  | _ + 1, 0 => []
  | f + 1, n + 1 => digitsCore b f ((n + 1) / b) ++ [(n + 1) % b]

/-- Big-endian base-`b` digits of `n`; `[]` for `n = 0`. -/
def digitsBE (b n : Nat) : List Nat := digitsCore b n n

/-- Rust `format!("{:x}", n)`: minimal lowercase hex, `"0"` for zero. -/
def natToHex (n : Nat) : String :=
  if n = 0 then "0" else ⟨(digitsBE 16 n).map hexChar⟩

/-- Rust `format!("{:0wx}", n)`: lowercase hex left-padded with zeros to at
least `w` characters (never truncated). -/
def formatHexPad (w n : Nat) : String :=
  ⟨List.replicate (w - (natToHex n).length) '0' ++ (natToHex n).data⟩

/-- Modelled from the spec: `pad_n_bytes` left-pads a hex string with zeros to
`n` bytes, i.e. `2 * n` hex characters ("left-padded to four hex chars" for
`n = 2`). -/
def pad_n_bytes (s : String) (n : Nat) : String :=
  ⟨List.replicate (2 * n - s.length) '0' ++ s.data⟩

/-- Two lowercase hex characters of a byte value `v < 256`. -/
def byteHexChars (v : Nat) : List Char := [hexChar (v / 16), hexChar (v % 16)]

/-- Hex characters of a big-endian byte list, two characters per byte. -/
def bytesToHexChars : List Nat → List Char
  | [] => []
  | v :: rest => hexChar (v / 16) :: hexChar (v % 16) :: bytesToHexChars rest

/-- Modelled from the spec: `bytes32_to_string(l, false)` renders a literal as
its minimum-width hex representation — leading zero nibbles stripped, length
kept even (at least two characters, `"00"` for zero). -/
def bytes32_to_string (l : Nat) : String :=
  match digitsBE 256 l with
  | [] => "00"
  | bs => ⟨bytesToHexChars bs⟩

/-- Numeric value of a hex string (big-endian). -/
def hexStrValue (s : String) : Nat :=
  s.data.foldl (fun a c => 16 * a + hexCharVal c) 0

/-- ASCII lowercase of one character (the strings handled by the code
generator are ASCII hex, so this matches Rust's `to_lowercase`). -/
def lowerChar (c : Char) : Char :=
  if 'A' ≤ c ∧ c ≤ 'Z' then Char.ofNat (c.toNat + 32) else c

/-- ASCII lowercase of a string (Rust `str::to_lowercase` on ASCII input). -/
def toLowerStr (s : String) : String := ⟨s.data.map lowerChar⟩

/-! ## The contract tree (modelled from the spec, §3)

The AST node types live in `huff_utils::ast`, which is not among the provided
sources; they are modelled from the spec's data model section. -/

/-- Modelled from the spec: a macro-invocation argument is a literal value (up
to 32 bytes, here a `Nat`), another argument reference to be bubbled further,
or an identifier. -/
inductive MacroArg
  | Literal (l : Nat)
  | ArgCall (arg_name : String)
  | Ident (ident : String)
deriving DecidableEq, Repr

/-- Modelled from the spec: a nested macro invocation — target name plus the
ordered actual-argument list. -/
structure MacroInvocation where
  macro_name : String
  args : List MacroArg
deriving DecidableEq, Repr

/-- Modelled from the spec: a formal parameter of a macro; the name is
optional. -/
structure Argument where
  name : Option String
deriving DecidableEq, Repr

/-- Modelled from the spec: a statement of a macro body.  Opcode statements
carry their one-byte hex encoding, resolved by the opcode table of §4.1. -/
inductive Statement
  | Literal (l : Nat)
  | Opcode (hex : String)
  | Constant (const_name : String)
  | ArgCall (arg_name : String)
  | Label (label_name : String)
  | LabelCall (label_name : String)
  | MacroInvocation (mi : MacroInvocation)
deriving DecidableEq, Repr

/-- Modelled from the spec: a macro definition — name, ordered parameter list,
ordered statement body. -/
structure MacroDefinition where
  name : String
  parameters : List Argument
  statements : List Statement
deriving DecidableEq, Repr

/-- Modelled from the spec: a constant is a literal of up to 32 bytes or a
free-storage pointer (whose numeric value must have been assigned by a prior
pass before codegen). -/
inductive ConstVal
  | Literal (l : Nat)
  | FreeStoragePointer (fsp : Nat)
deriving DecidableEq, Repr

/-- Modelled from the spec: a named constant definition. -/
structure ConstantDefinition where
  name : String
  value : ConstVal
deriving DecidableEq, Repr

/-- Modelled from the spec: the contract tree — ordered macro definitions and
ordered constant definitions (ABI-only declarations are irrelevant to the
core and omitted). -/
structure Contract where
  macros : List MacroDefinition
  constants : List ConstantDefinition
deriving DecidableEq, Repr

/-- Modelled from the spec: look a macro up by exact name, first match on the
ordered list. -/
def Contract.find_macro_by_name (c : Contract) (mname : String) :
    Option MacroDefinition :=
  c.macros.find? (fun m => m.name == mname)

/-! ## Opcode table (modelled from the spec, §4.1) -/

/-- Modelled from the spec: the opcode table maps EVM mnemonics to their
one-byte hex encoding; a representative subset of the closed mnemonic set
(`JUMPDEST → "5b"`, `PUSH2 → "61"`, …).  Unknown mnemonics yield `none`,
which the argument resolver uses as a discriminator. -/
def opcodes : List (String × String) :=
  [("stop", "00"), ("add", "01"), ("mul", "02"), ("sub", "03"), ("div", "04"),
   ("mod", "06"), ("exp", "0a"), ("lt", "10"), ("gt", "11"), ("eq", "14"),
   ("iszero", "15"), ("and", "16"), ("or", "17"), ("xor", "18"), ("not", "19"),
   ("byte", "1a"), ("shl", "1b"), ("shr", "1c"), ("sha3", "20"),
   ("address", "30"), ("balance", "31"), ("origin", "32"), ("caller", "33"),
   ("callvalue", "34"), ("calldataload", "35"), ("calldatasize", "36"),
   ("calldatacopy", "37"), ("codesize", "38"), ("codecopy", "39"),
   ("timestamp", "42"), ("number", "43"), ("pop", "50"), ("mload", "51"),
   ("mstore", "52"), ("mstore8", "53"), ("sload", "54"), ("sstore", "55"),
   ("jump", "56"), ("jumpi", "57"), ("pc", "58"), ("msize", "59"),
   ("gas", "5a"), ("jumpdest", "5b"), ("push2", "61"), ("dup1", "80"),
   ("dup2", "81"), ("dup3", "82"), ("dup4", "83"), ("swap1", "90"),
   ("swap2", "91"), ("log0", "a0"), ("create", "f0"), ("call", "f1"),
   ("return", "f3"), ("delegatecall", "f4"), ("staticcall", "fa"),
   ("revert", "fd"), ("selfdestruct", "ff")]

/-- Modelled from the spec: `Opcode::from_str`, case-insensitive per Huff
convention; returns the one-byte hex encoding. -/
def opcode_from_str (s : String) : Option String :=
  (opcodes.find? (fun p => p.1 == toLowerStr s)).map (fun p => p.2)

/-! ## IR bytes and lowering (modelled from the spec, §4.2) -/

/-- Modelled from the spec: the lowered form of a statement. -/
inductive IRByte
  | Bytes (b : String)
  | Constant (const_name : String)
  | ArgCall (arg_name : String)
  | Statement (s : Statement)
deriving DecidableEq, Repr

/-- The PUSH-prefixed fragment for an inlined literal:
`format!("{:02x}{}", 95 + hex_literal.len() / 2, hex_literal)`, the exact
expression used at the three literal-inlining sites of the source
(`recurse_bytecode`'s constant branch and `bubble_arg_call`'s constant and
literal-argument branches). -/
def push_literal (l : Nat) : String :=
  formatHexPad 2 (95 + (bytes32_to_string l).length / 2) ++ bytes32_to_string l

/-- Modelled from the spec: the lowered form of one statement — hex literals
(PUSH-prefixed) and resolved mnemonics become `Bytes`, constant references
`Constant`, argument references `ArgCall`; label declarations, label
references and nested invocations stay `Statement` for the expander. -/
def lowerStatement (s : Statement) : IRByte :=
  match s with
  | .Literal l => .Bytes (push_literal l)
  | .Opcode hex => .Bytes hex
  | .Constant n => .Constant n
  | .ArgCall n => .ArgCall n
  | s => .Statement s

/-- Modelled from the spec: lowering flattens a macro body into an ordered
sequence of IR bytes, one per statement. -/
def MacroDefinition.to_irbytecode (md : MacroDefinition) : List IRByte :=
  md.statements.map lowerStatement

/-! ## Errors, jumps, and jump tables -/

/-- The `kind` discriminator of the structured codegen error
(`huff_utils::error::CodegenErrorKind`; the kinds are listed in the spec's
error-handling section). -/
inductive CodegenErrorKind
  | MissingAst
  | MissingMacroDefinition (mname : String)
  | MissingConstructor
  | MissingConstantDefinition
  | StoragePointersNotDerived
  | InvalidMacroStatement
  | FailedMacroRecursion
  | IOError (msg : String)
deriving DecidableEq, Repr

/-- The structured codegen error: a kind, an optional span and an optional
offending token (the codegen core always passes `None` for both, so they are
modelled as `Option Unit`). -/
structure CodegenError where
  kind : CodegenErrorKind
  span : Option Unit := none
  token : Option Unit := none
deriving DecidableEq, Repr

/-- Outcomes of running embedded code: a structured codegen error, a Rust
panic (`unwrap` on `None`), or exhaustion of the embedding's fuel (standing
for divergence of the unbounded Rust recursion). -/
inductive RunError
  | cg (e : CodegenError)
  | panicked
  | outOfFuel
deriving DecidableEq, Repr

/-- A pending jump: label name and hex-character index of its `PUSH2`
placeholder inside the fragment (or frame) it is recorded against. -/
structure Jump where
  label : String
  bytecode_index : Nat
deriving DecidableEq, Repr

/-- Map from statement index to pending jumps (`huff_utils::bytecode`'s
`JumpTable`), as an association list with insert-replace semantics. -/
abbrev JumpTable : Type := List (Nat × List Jump)

/-- Map from label name to absolute byte offset (`JumpIndices`), as an
association list with insert-replace semantics. -/
abbrev JumpIndices : Type := List (String × Nat)

/-- Insert-replace into an association list (the `BTreeMap::insert` of the
source: an existing binding of the key is overwritten). -/
def alInsert {κ ν : Type} [DecidableEq κ] (m : List (κ × ν)) (k : κ) (v : ν) :
    List (κ × ν) :=
  if m.any (fun p => p.1 = k) then
    m.map (fun p => if p.1 = k then (k, v) else p)
  else m ++ [(k, v)]

/-- Lookup in an association list (first binding of the key). -/
def alLookup {κ ν : Type} [DecidableEq κ] (m : List (κ × ν)) (k : κ) :
    Option ν :=
  (m.find? (fun p => p.1 = k)).map (fun p => p.2)

/-- Collect a pair sequence into a map, later bindings overwriting earlier
ones (the `chain(...).collect::<BTreeMap<_,_>>()` of the source). -/
def alCollect {κ ν : Type} [DecidableEq κ] (l : List (κ × ν)) : List (κ × ν) :=
  l.foldl (fun m kv => alInsert m kv.1 kv.2) []

/-! ## The argument resolver (`Codegen::bubble_arg_call`)

Translated from `src/huff_codegen/src/lib.rs`.  The Rust signature takes
`bytegen`, `offset` and `jump_table` by `&mut`; here they are threaded and
returned.  `scope` and `mis` are read (never mutated) by the Rust function —
its recursive calls receive freshly truncated copies — so they are plain
inputs.  Recursion is structural on `scope` (each recursive call drops the
top scope entry, and an empty truncated scope panics in Rust on
`last().unwrap()`). -/

/-- The non-recursive decision chain of `Codegen::bubble_arg_call` —
precedence constant → opcode → formal parameter (via the top of the
invocation stack) → label fallthrough (only reachable with an empty
invocation stack).  The single recursion point of the source (a formal
parameter bound to a further `ArgCall`) is the continuation `onArgCall`,
which receives the caller's invocation (`mis.last()`) and the truncated
invocation stack. -/
def bubble_resolve (arg_name : String) (bytegen : List String)
    (macro_def : MacroDefinition) (contract : Contract) (offset : Nat)
    (mis : List (Nat × MacroInvocation)) (jump_table : JumpTable)
    (onArgCall : (macro_invoc : Nat × MacroInvocation) →
      (mis_rest : List (Nat × MacroInvocation)) →
      Except RunError (List String × Nat × JumpTable)) :
    Except RunError (List String × Nat × JumpTable) :=
  -- Check constant definitions
  match contract.constants.find? (fun cd => cd.name == arg_name) with
  | some ⟨_cname, .Literal _l⟩ =>
    let push_bytes := push_literal _l
    .ok (bytegen ++ [push_bytes], offset + push_bytes.length / 2, jump_table)
  | some ⟨_cname, .FreeStoragePointer _fsp⟩ =>
    .error (.cg { kind := .StoragePointersNotDerived })
  | none =>
    match opcode_from_str arg_name with
    | some o =>
      -- Check opcode definition
      .ok (bytegen ++ [o], offset + o.length / 2, jump_table)
    | none =>
      match mis with
      | macro_invoc :: mis_rest =>
        -- Literal & arg-call check: position of arg_name in the parameters
        match macro_def.parameters.findIdx?
            (fun r => match r.name with | some s => s == arg_name | none => false) with
        | some pos =>
          match macro_invoc.2.args[pos]? with
          | some (MacroArg.Literal l) =>
            let b := push_literal l
            .ok (bytegen ++ [b], offset + b.length / 2, jump_table)
          | some (MacroArg.ArgCall _ac) => onArgCall macro_invoc mis_rest
          | some (MacroArg.Ident _iden) =>
            -- warned, TODO in the source: nothing is emitted
            .ok (bytegen, offset, jump_table)
          | none =>
            -- "FOUND IN MACRO DEF BUT NOT IN MACRO INVOCATION": warn only
            .ok (bytegen, offset, jump_table)
        | none =>
          -- "NOT IN ARG LIST": warn only
          .ok (bytegen, offset, jump_table)
      | [] =>
        -- Label-call fallthrough; `mis.last()` is `None` here so the
        -- `unwrap_or(0)` key is always 0.
        .ok (bytegen ++ ["61xxxx"], offset + 3,
          alInsert jump_table 0 [{ label := arg_name, bytecode_index := 0 }])

/-- `Codegen::bubble_arg_call`, recursing structurally on the scope stack:
on a further `ArgCall` the resolver re-enters with the *same* `arg_name`, the
truncated scope (whose new top, `new_scope.last().unwrap()`, panics when the
truncated scope is empty), the truncated jump-table list, and the invocation
stack with the caller popped exactly when the caller's invocation name equals
the current macro's name. -/
def bubble_arg_call (arg_name : String) (bytegen : List String)
    (macro_def : MacroDefinition) (contract : Contract) :
    List MacroDefinition → Nat → List JumpTable →
    List (Nat × MacroInvocation) → JumpTable →
    Except RunError (List String × Nat × JumpTable)
  | [], offset, _jump_tables, mis, jump_table =>
    -- `new_scope = scope[..0]` is empty: `last().unwrap()` panics
    bubble_resolve arg_name bytegen macro_def contract offset mis jump_table
      (fun _ _ => .error .panicked)
  | _top :: new_scope, offset, jump_tables, mis, jump_table =>
    bubble_resolve arg_name bytegen macro_def contract offset mis jump_table
      (fun macro_invoc mis_rest =>
        match new_scope with
        | [] => .error .panicked
        | bubbled :: _ =>
          if macro_invoc.2.macro_name = macro_def.name then
            bubble_arg_call arg_name bytegen bubbled contract new_scope offset
              jump_tables.tail mis_rest jump_table
          else
            bubble_arg_call arg_name bytegen bubbled contract new_scope offset
              jump_tables.tail (macro_invoc :: mis_rest) jump_table)

/-! ## The expander (`Codegen::recurse_bytecode`) -/

/-- The result record returned by the expander
(`huff_utils::bytecode::BytecodeRes`). -/
structure BytecodeRes where
  bytes : List String
  jump_tables : List JumpTable
  jump_indices : JumpIndices
  unmatched_jumps : List Jump
deriving DecidableEq, Repr

/-- The state threaded through the statement loop of `recurse_bytecode`:
the emitted fragments, the running byte offset, the frame-local jump table
and jump indices, and the shared `scope` / `mis` stacks (mutated across
nested calls in Rust). -/
structure LoopState where
  bytes : List String
  offset : Nat
  jump_table : JumpTable
  jump_indices : JumpIndices
  scope : List MacroDefinition
  mis : List (Nat × MacroInvocation)
deriving DecidableEq, Repr

/-- One iteration of the statement loop of `recurse_bytecode`, processing the
IR byte at statement index `index`.  `rec` is the recursive expander call
used for nested macro invocations (it receives the macro definition, the
pushed scope, the current offset, a clone of the enclosing `jump_tables`, and
the pushed invocation stack). -/
def recurse_step
    (rec : MacroDefinition → List MacroDefinition → Nat → List JumpTable →
      List (Nat × MacroInvocation) →
      Except RunError (BytecodeRes × List MacroDefinition × List (Nat × MacroInvocation)))
    (contract : Contract) (macro_def : MacroDefinition)
    (jump_tables : List JumpTable) (index : Nat) (ir : IRByte)
    (st : LoopState) : Except RunError LoopState :=
  match ir with
  | .Bytes b =>
    .ok { st with offset := st.offset + b.length / 2, bytes := st.bytes ++ [b] }
  | .Constant cname =>
    match contract.constants.find? (fun cd => cd.name == cname) with
    | none => .error (.cg { kind := .MissingConstantDefinition })
    | some ⟨_cn, .Literal l⟩ =>
      let push_bytes := push_literal l
      .ok { st with offset := st.offset + push_bytes.length / 2,
                    bytes := st.bytes ++ [push_bytes] }
    | some ⟨_cn, .FreeStoragePointer _fsp⟩ =>
      .error (.cg { kind := .StoragePointersNotDerived })
  | .Statement s =>
    match s with
    | .MacroInvocation mi =>
      match contract.find_macro_by_name mi.macro_name with
      | none => .error (.cg { kind := .MissingMacroDefinition mi.macro_name })
      | some inner_def =>
        match rec inner_def (inner_def :: st.scope) st.offset jump_tables
            ((index, mi) :: st.mis) with
        | .ok (res, scope_after, mis_after) =>
          .ok { bytes := st.bytes ++ res.bytes,
                offset := st.offset + (res.bytes.map String.length).sum / 2,
                jump_table := alInsert st.jump_table index res.unmatched_jumps,
                jump_indices := alCollect (st.jump_indices ++ res.jump_indices),
                scope := scope_after,
                mis := mis_after }
        | .error (.cg _e) =>
          -- `if let Ok(res) … else return FailedMacroRecursion`: the child's
          -- structured error is replaced at this frame.
          .error (.cg { kind := .FailedMacroRecursion })
        | .error .panicked => .error .panicked
        | .error .outOfFuel => .error .outOfFuel
    | .Label lname =>
      .ok { st with jump_indices := alInsert st.jump_indices lname st.offset,
                    offset := st.offset + 1,
                    bytes := st.bytes ++ ["5b"] }
    | .LabelCall lname =>
      .ok { st with
            jump_table := alInsert st.jump_table index
              [{ label := lname, bytecode_index := 0 }],
            offset := st.offset + 3,
            bytes := st.bytes ++ ["61xxxx"] }
    | _ => .error (.cg { kind := .InvalidMacroStatement })
  | .ArgCall arg_name =>
    match bubble_arg_call arg_name st.bytes macro_def contract st.scope
        st.offset jump_tables st.mis st.jump_table with
    | .error e => .error e
    | .ok (bg, off, jt) =>
      .ok { st with bytes := bg, offset := off, jump_table := jt }

/-- The statement loop of `recurse_bytecode`: left-to-right over the
enumerated IR bytes, threading the loop state; any error aborts the whole
expander call. -/
def recurse_loop
    (rec : MacroDefinition → List MacroDefinition → Nat → List JumpTable →
      List (Nat × MacroInvocation) →
      Except RunError (BytecodeRes × List MacroDefinition × List (Nat × MacroInvocation)))
    (contract : Contract) (macro_def : MacroDefinition)
    (jump_tables : List JumpTable) (items : List (Nat × IRByte))
    (st : LoopState) : Except RunError LoopState :=
  match items with
  | [] => .ok st
  | (index, ir) :: rest =>
    match recurse_step rec contract macro_def jump_tables index ir st with
    | .error e => .error e
    | .ok st1 => recurse_loop rec contract macro_def jump_tables rest st1

/-- The running fragment-boundary offsets of the second pass:
`vec![cur_index]` followed by cumulative byte lengths (the source seeds
`cur_index` with the *final* loop offset, so `indices[i] - offset` is the
byte offset of fragment `i` within the frame). -/
def indicesFrom (cur : Nat) : List String → List Nat
  | [] => [cur]
  | b :: rest => cur :: indicesFrom (cur + b.length / 2) rest

/-- The second pass of `recurse_bytecode`: patch each pending jump whose
label is known locally into its fragment at the placeholder position, and
translate the rest into frame-relative unmatched jumps for the caller. -/
def patch_jumps (st : LoopState) : List String × List Jump :=
  let indices := indicesFrom st.offset st.bytes
  st.bytes.enum.foldl
    (fun (acc : List String × List Jump) ib =>
      match alLookup st.jump_table ib.1 with
      | none => (acc.1 ++ [ib.2], acc.2)
      | some jt =>
        let r := jt.foldl
          (fun (p : String × List Jump) jump =>
            match alLookup st.jump_indices jump.label with
            | some jump_index =>
              let jump_value := pad_n_bytes (natToHex jump_index) 2
              let before : String := ⟨p.1.data.take (jump.bytecode_index + 2)⟩
              let after : String := ⟨p.1.data.drop (jump.bytecode_index + 6)⟩
              (before ++ jump_value ++ after, p.2)
            | none =>
              let jump_offset := ((indices.getD ib.1 0) - st.offset) * 2
              (p.1, p.2 ++ [{ label := jump.label,
                              bytecode_index := jump_offset + jump.bytecode_index }]))
          (ib.2, acc.2)
        (acc.1 ++ [r.1], r.2))
    ([], [])

/-- `Codegen::recurse_bytecode`, made total by fuel (each nested macro
invocation consumes one unit; Rust recursion is unbounded).  Returns the
`BytecodeRes` along with the final `scope` and `mis` stacks (which Rust
mutates through `&mut`). -/
def recurse_bytecode : Nat → Option Contract → MacroDefinition →
    List MacroDefinition → Nat → List JumpTable →
    List (Nat × MacroInvocation) →
    Except RunError (BytecodeRes × List MacroDefinition × List (Nat × MacroInvocation))
  | 0, _, _, _, _, _, _ => .error .outOfFuel
  | fuel + 1, ast, macro_def, scope, offset, jump_tables, mis =>
    match ast with
    | none => .error (.cg { kind := .MissingAst })
    | some contract =>
      match recurse_loop (recurse_bytecode fuel ast) contract macro_def
          jump_tables macro_def.to_irbytecode.enum
          { bytes := [], offset := offset, jump_table := [],
            jump_indices := [], scope := scope, mis := mis } with
      | .error e => .error e
      | .ok st =>
        -- "We're done, let's pop off the macro invocation" (no-op on empty)
        let mis_out := st.mis.tail
        let patched := patch_jumps st
        .ok ({ bytes := patched.1, jump_tables := jump_tables,
               jump_indices := st.jump_indices,
               unmatched_jumps := patched.2 },
             st.scope, mis_out)

/-- `Codegen::roll`: generate main bytecode by expanding the macro literally
named `"MAIN"`. -/
def roll (fuel : Nat) (ast : Option Contract) : Except RunError String :=
  match ast with
  | none => .error (.cg { kind := .MissingAst })
  | some contract =>
    match contract.find_macro_by_name "MAIN" with
    | none => .error (.cg { kind := .MissingMacroDefinition "MAIN" })
    | some m =>
      match recurse_bytecode fuel ast m [m] 0 [] [] with
      | .error e => .error e
      | .ok (res, _, _) => .ok (String.join res.bytes)

/-- `Codegen::construct`: generate constructor bytecode by expanding the
macro literally named `"CONSTRUCTOR"`. -/
def construct (fuel : Nat) (ast : Option Contract) : Except RunError String :=
  match ast with
  | none => .error (.cg { kind := .MissingAst })
  | some contract =>
    match contract.find_macro_by_name "CONSTRUCTOR" with
    | none => .error (.cg { kind := .MissingConstructor })
    | some c =>
      match recurse_bytecode fuel ast c [c] 0 [] [] with
      | .error e => .error e
      | .ok (res, _, _) => .ok (String.join res.bytes)

/-! ## The artifact assembler (`Codegen::churn`) -/

/-- Modelled from the spec: the artifact record — deployable bytecode,
runtime bytecode, an optional ABI description (abstract type `α`) and a
file-source descriptor (modelled as a plain string). -/
structure Artifact (α : Type) where
  bytecode : String := ""
  runtime : String := ""
  abi : Option α := none
  file : String := ""
deriving DecidableEq, Repr

/-- The code-generation manager (`Codegen`): input AST, cached artifact, and
the intermediate bytecode stores. -/
structure Codegen (α : Type) where
  ast : Option Contract := none
  artifact : Option (Artifact α) := none
  main_bytecode : Option String := none
  constructor_bytecode : Option String := none
deriving DecidableEq, Repr

/-- `Codegen::churn`: assemble the deployable artifact.  The external ABI
token encoder (`hex::encode(ethers::abi::encode(&[tok]))`) is abstracted as
`enc : τ → String`, returning the hex encoding of one token.  Returns the
artifact together with the updated manager (whose cached artifact Rust
mutates in place). -/
def churn {α τ : Type} (cg : Codegen α) (file : String) (enc : τ → String)
    (args : List τ) (main_bytecode constructor_bytecode : String) :
    Except RunError (Artifact α × Codegen α) :=
  let artifact : Artifact α := cg.artifact.getD {}
  let contract_length := main_bytecode.length / 2
  let constructor_length := constructor_bytecode.length / 2
  let contract_size := formatHexPad 4 contract_length
  let contract_code_offset := formatHexPad 4 (13 + constructor_length)
  let constructor_args := String.join (args.map enc)
  -- format!("61{}8061{}6000396000f3", contract_size, contract_code_offset)
  let bootstrap_code :=
    "61" ++ contract_size ++ "8061" ++ contract_code_offset ++ "6000396000f3"
  let constructor_code := constructor_bytecode ++ bootstrap_code
  let artifact := { artifact with
    bytecode := toLowerStr (constructor_code ++ main_bytecode ++ constructor_args),
    runtime := toLowerStr main_bytecode,
    file := file }
  .ok (artifact, { cg with artifact := some artifact })

/-! ## Claim C1 -/

/-- Claim C1: for every file source, constructor-argument token list and pair
of hex strings, `Codegen::churn` succeeds, the artifact's `bytecode` is the
lowercase concatenation
`constructor_hex ++ "61" ++ size ++ "80" ++ "61" ++ offset ++ "6000396000f3"
++ main_hex ++ args_hex` — with `size` the `{:04x}` rendering of
`len(main_hex)/2`, `offset` that of `13 + len(constructor_hex)/2`, and
`args_hex` the concatenated hex ABI encodings of the tokens in order — and
the artifact's `runtime` is lowercase `main_hex`. -/
theorem churn_artifact_composition {α τ : Type} (cg : Codegen α) (file : String)
    (enc : τ → String) (args : List τ) (main_bytecode constructor_bytecode : String) :
    ∃ (a : Artifact α) (cg' : Codegen α),
      churn cg file enc args main_bytecode constructor_bytecode = .ok (a, cg') ∧
      a.bytecode = toLowerStr (constructor_bytecode ++ "61" ++
        formatHexPad 4 (main_bytecode.length / 2) ++ "80" ++ "61" ++
        formatHexPad 4 (13 + constructor_bytecode.length / 2) ++
        "6000396000f3" ++ main_bytecode ++ String.join (args.map enc)) ∧
      a.runtime = toLowerStr main_bytecode := by
  refine ⟨_, _, rfl, ?_, rfl⟩
  refine congrArg toLowerStr ?_
  apply String.ext
  simp [List.append_assoc]

/-! ## Claim C9 -/

/-- Claim C9: `Codegen::churn` writes only the `bytecode`, `runtime` and
`file` fields of the cached artifact; an ABI already stored in the instance's
artifact is carried into the returned artifact unchanged. -/
theorem churn_preserves_abi {α τ : Type} (cg : Codegen α) (a0 : Artifact α)
    (file : String) (enc : τ → String) (args : List τ)
    (main_bytecode constructor_bytecode : String)
    (h : cg.artifact = some a0) :
    ∃ (a : Artifact α) (cg' : Codegen α),
      churn cg file enc args main_bytecode constructor_bytecode = .ok (a, cg') ∧
      a.abi = a0.abi ∧ cg'.artifact = some a := by
  refine ⟨_, _, rfl, ?_, rfl⟩
  simp [churn, h]

/-- Witness for C9 at a concrete instance whose artifact holds the ABI
`some 7`. -/
theorem churn_preserves_abi_witness :
    ∃ (a : Artifact Nat) (cg' : Codegen Nat),
      churn (τ := Unit) { artifact := some { abi := some 7 } } "file.huff"
        (fun _ => "") [] "aabb" "cc" = .ok (a, cg') ∧
      a.abi = (({ abi := some 7 } : Artifact Nat)).abi ∧ cg'.artifact = some a :=
  churn_preserves_abi (τ := Unit) { artifact := some { abi := some 7 } }
    { abi := some 7 } "file.huff" (fun _ => "") [] "aabb" "cc" rfl

/-! ## Claim C8 -/

/-- Claim C8: `Codegen::roll` on a tree without a macro literally named
`"MAIN"` fails with `MissingMacroDefinition("MAIN")`, and `Codegen::construct`
on a tree without a `"CONSTRUCTOR"` macro fails with `MissingConstructor`;
neither returns bytecode. -/
theorem missing_main_and_constructor_errors (fuel : Nat) (c c' : Contract)
    (h1 : ∀ m ∈ c.macros, m.name ≠ "MAIN")
    (h2 : ∀ m ∈ c'.macros, m.name ≠ "CONSTRUCTOR") :
    roll fuel (some c) = .error (.cg { kind := .MissingMacroDefinition "MAIN" }) ∧
    construct fuel (some c') = .error (.cg { kind := .MissingConstructor }) := by
  have f1 : c.find_macro_by_name "MAIN" = none := by
    unfold Contract.find_macro_by_name
    rw [List.find?_eq_none]
    intro m hm
    simpa using h1 m hm
  have f2 : c'.find_macro_by_name "CONSTRUCTOR" = none := by
    unfold Contract.find_macro_by_name
    rw [List.find?_eq_none]
    intro m hm
    simpa using h2 m hm
  constructor
  · simp [roll, f1]
  · simp [construct, f2]

/-- Witness for C8 at the empty contract tree. -/
theorem missing_main_and_constructor_errors_witness :
    roll 1 (some ⟨[], []⟩) = .error (.cg { kind := .MissingMacroDefinition "MAIN" }) ∧
    construct 1 (some ⟨[], []⟩) = .error (.cg { kind := .MissingConstructor }) :=
  missing_main_and_constructor_errors 1 ⟨[], []⟩ ⟨[], []⟩
    (by intro m hm; simp at hm) (by intro m hm; simp at hm)

/-! ## Claim C2 -/

/-- A `MAIN` macro whose body is a single jump to a label that is declared
nowhere. -/
def c2Main : MacroDefinition := ⟨"MAIN", [], [.LabelCall "missing"]⟩

/-- Contract tree exercising an unresolvable label from `MAIN`. -/
def c2Contract : Contract := ⟨[c2Main], []⟩

/-- A `CONSTRUCTOR` macro with the same unresolvable jump. -/
def c2Ctor : MacroDefinition := ⟨"CONSTRUCTOR", [], [.LabelCall "missing"]⟩

/-- Contract tree exercising an unresolvable label from `CONSTRUCTOR`. -/
def c2CtorContract : Contract := ⟨[c2Ctor], []⟩

/-- Claim C2 (code bug): on a contract whose `MAIN` (or `CONSTRUCTOR`) jumps
to a label declared in no frame, `Codegen::roll` / `Codegen::construct` do
*not* fail — they return `Ok` bytecode that still contains the literal
`"61xxxx"` placeholder, even though the expansion's `unmatched_jumps` list is
non-empty.  Neither entry point inspects `unmatched_jumps`. -/
theorem roll_returns_unresolved_placeholder :
    roll 1 (some c2Contract) = .ok "61xxxx" ∧
    construct 1 (some c2CtorContract) = .ok "61xxxx" ∧
    (recurse_bytecode 1 (some c2Contract) c2Main [c2Main] 0 [] []).map
        (fun r => r.1.unmatched_jumps) =
      .ok [{ label := "missing", bytecode_index := 0 }] := by
  refine ⟨rfl, rfl, rfl⟩

/-! ## Claim C10 -/

/-- Claim C10: when `bubble_arg_call` resolves an argument reference to a
formal parameter whose actual argument at the caller's invocation is an
`Ident`, it returns `Ok` while emitting no bytes, leaving the offset
unchanged and recording no pending jump — the identifier is silently
dropped. -/
theorem ident_arg_silently_dropped (arg_name : String) (bytegen : List String)
    (macro_def : MacroDefinition) (contract : Contract)
    (scope : List MacroDefinition) (offset : Nat) (jump_tables : List JumpTable)
    (mi : Nat × MacroInvocation) (mis_rest : List (Nat × MacroInvocation))
    (jump_table : JumpTable) (pos : Nat) (ident : String)
    (hc : ∀ cd ∈ contract.constants, cd.name ≠ arg_name)
    (ho : opcode_from_str arg_name = none)
    (hp : macro_def.parameters.findIdx?
      (fun r => match r.name with | some s => s == arg_name | none => false) = some pos)
    (ha : mi.2.args[pos]? = some (MacroArg.Ident ident)) :
    bubble_arg_call arg_name bytegen macro_def contract scope offset
      jump_tables (mi :: mis_rest) jump_table =
      .ok (bytegen, offset, jump_table) := by
  have hfind : contract.constants.find? (fun cd => cd.name == arg_name) = none := by
    rw [List.find?_eq_none]
    intro cd hcd
    simpa using hc cd hcd
  cases scope <;>
    simp [bubble_arg_call, bubble_resolve, hfind, ho, hp, ha]

/-- Witness for C10: a parameter `a` bound to the identifier argument
`lbl`. -/
theorem ident_arg_silently_dropped_witness :
    bubble_arg_call "a" ["ff"] ⟨"Q", [⟨some "a"⟩], []⟩ ⟨[], []⟩
      [⟨"Q", [⟨some "a"⟩], []⟩] 7 [] [(3, ⟨"Q", [.Ident "lbl"]⟩)] [] =
      .ok (["ff"], 7, []) :=
  ident_arg_silently_dropped "a" ["ff"] ⟨"Q", [⟨some "a"⟩], []⟩ ⟨[], []⟩
    [⟨"Q", [⟨some "a"⟩], []⟩] 7 [] (3, ⟨"Q", [.Ident "lbl"]⟩) [] [] 0 "lbl"
    (by intro cd hcd; simp at hcd) rfl rfl rfl

/-! ## Claim C3 -/

/-- Claim C3 counterexample: with a current invocation on the stack
(`mis = [(5, P())]`) and a name `"z"` matching no constant, no opcode and no
formal parameter, `bubble_arg_call` does *not* treat the name as a label
reference — it returns `Ok` with no fragment appended, the offset unchanged
and no pending jump recorded, instead of appending `"61xxxx"`, advancing the
offset by 3 and keying a jump under the callsite index 5. -/
theorem bubble_nonroot_label_counterexample :
    opcode_from_str "z" = none ∧
    (∀ cd ∈ (⟨[⟨"P", [], []⟩], []⟩ : Contract).constants, cd.name ≠ "z") ∧
    (⟨"P", [], []⟩ : MacroDefinition).parameters.findIdx?
      (fun r => match r.name with | some s => s == "z" | none => false) = none ∧
    bubble_arg_call "z" [] ⟨"P", [], []⟩ ⟨[⟨"P", [], []⟩], []⟩
      [⟨"P", [], []⟩] 0 [] [(5, ⟨"P", []⟩)] [] = .ok ([], 0, []) ∧
    (Except.ok ([], 0, []) :
        Except RunError (List String × Nat × JumpTable)) ≠
      .ok (["61xxxx"], 0 + 3,
        alInsert [] 5 [{ label := "z", bytecode_index := 0 }]) := by
  refine ⟨rfl, by simp, rfl, rfl, ?_⟩
  simp

/-- Claim C3 (amended): the label fallthrough of `bubble_arg_call` fires only
when the invocation stack is empty (the root), in which case the pending jump
is keyed by index 0, the placeholder `"61xxxx"` is appended and the offset
advances by 3; when a current invocation exists and the name is bound to no
formal parameter of the current macro, the call instead returns `Ok` having
emitted nothing and recorded nothing (a warning-only path). -/
theorem bubble_arg_call_label_fallthrough_amended (arg_name : String)
    (bytegen : List String) (macro_def : MacroDefinition) (contract : Contract)
    (scope : List MacroDefinition) (offset : Nat) (jump_tables : List JumpTable)
    (jump_table : JumpTable) (mi : Nat × MacroInvocation)
    (mis_rest : List (Nat × MacroInvocation))
    (hc : ∀ cd ∈ contract.constants, cd.name ≠ arg_name)
    (ho : opcode_from_str arg_name = none)
    (hp : macro_def.parameters.findIdx?
      (fun r => match r.name with | some s => s == arg_name | none => false) = none) :
    bubble_arg_call arg_name bytegen macro_def contract scope offset
        jump_tables [] jump_table =
      .ok (bytegen ++ ["61xxxx"], offset + 3,
        alInsert jump_table 0 [{ label := arg_name, bytecode_index := 0 }]) ∧
    bubble_arg_call arg_name bytegen macro_def contract scope offset
        jump_tables (mi :: mis_rest) jump_table =
      .ok (bytegen, offset, jump_table) := by
  have hfind : contract.constants.find? (fun cd => cd.name == arg_name) = none := by
    rw [List.find?_eq_none]
    intro cd hcd
    simpa using hc cd hcd
  constructor
  · cases scope <;> simp [bubble_arg_call, bubble_resolve, hfind, ho]
  · cases scope <;> simp [bubble_arg_call, bubble_resolve, hfind, ho, hp]

/-- Witness for the amended C3 at a concrete macro and invocation. -/
theorem bubble_arg_call_label_fallthrough_witness :
    bubble_arg_call "z" ["00"] ⟨"P", [], []⟩ ⟨[⟨"P", [], []⟩], []⟩
        [⟨"P", [], []⟩] 4 [] [] [] =
      .ok (["00", "61xxxx"], 4 + 3,
        alInsert [] 0 [{ label := "z", bytecode_index := 0 }]) ∧
    bubble_arg_call "z" ["00"] ⟨"P", [], []⟩ ⟨[⟨"P", [], []⟩], []⟩
        [⟨"P", [], []⟩] 4 [] [(5, ⟨"P", []⟩)] [] =
      .ok (["00"], 4, []) := by
  have h := bubble_arg_call_label_fallthrough_amended "z" ["00"] ⟨"P", [], []⟩
    ⟨[⟨"P", [], []⟩], []⟩ [⟨"P", [], []⟩] 4 [] [] (5, ⟨"P", []⟩) []
    (by simp) rfl rfl
  simpa using h

/-! ## Claim C5 -/

/-- Name of the `i`-th macro of the forwarding chain. -/
def c5Name (i : Nat) : String := "M" ++ toString i

/-- The `i`-th single-parameter chain macro; every chain macro binds the same
parameter name `x` (bubbling only consults names and parameters, not
bodies). -/
def c5Def (i : Nat) : MacroDefinition := ⟨c5Name i, [⟨some "x"⟩], []⟩

/-- The scope stack after entering `k` nested chain macros (innermost = most
recently entered = head). -/
def c5Scope : Nat → List MacroDefinition
  | 0 => []
  | k + 1 => c5Def (k + 1) :: c5Scope k

/-- The invocation stack after entering `k` nested chain macros: the root
invoked the outermost with the literal `v`; every inner one was invoked with
the forwarded argument reference `<x>`. -/
def c5Mis (v : Nat) : Nat → List (Nat × MacroInvocation)
  | 0 => []
  | 1 => [(0, ⟨c5Name 1, [.Literal v]⟩)]
  | k + 2 => (0, ⟨c5Name (k + 2), [.ArgCall "x"]⟩) :: c5Mis v (k + 1)

/-- Contract tree for the chain scenario (no constants, so the name `x`
shadows nothing). -/
def c5Contract : Contract := ⟨[], []⟩

/-- Claim C5 (amended): bubbling a literal `v` through `N ≥ 1` nested
single-parameter macros that all bind the *same* parameter name and forward
it to their inner invocation emits exactly the PUSH of `v` that invoking the
innermost macro directly with `v` emits (same fragment, same offset advance,
same jump table). -/
theorem bubble_chain_equivalence_amended (k v offset : Nat)
    (bytegen : List String) (s0 : List MacroDefinition)
    (jump_tables : List JumpTable) (jump_table : JumpTable) (hk : 1 ≤ k) :
    bubble_arg_call "x" bytegen (c5Def k) c5Contract (c5Scope k ++ s0) offset
        jump_tables (c5Mis v k) jump_table =
      .ok (bytegen ++ [push_literal v],
        offset + (push_literal v).length / 2, jump_table) ∧
    bubble_arg_call "x" bytegen (c5Def k) c5Contract (c5Scope k ++ s0) offset
        jump_tables [(0, ⟨c5Name k, [.Literal v]⟩)] jump_table =
      .ok (bytegen ++ [push_literal v],
        offset + (push_literal v).length / 2, jump_table) := by
  have ox : opcode_from_str "x" = none := rfl
  have hfi : (([⟨some "x"⟩] : List Argument).findIdx?
      (fun r => match r.name with | some s => s == "x" | none => false)) =
      some 0 := rfl
  obtain ⟨j, rfl⟩ : ∃ j, k = j + 1 := ⟨k - 1, by omega⟩
  constructor
  · induction j generalizing jump_tables with
    | zero =>
      simp [c5Scope, c5Mis, bubble_arg_call, bubble_resolve, c5Contract,
        c5Def, ox, hfi]
    | succ j ih =>
      have hstep :
          bubble_arg_call "x" bytegen (c5Def (j + 2)) c5Contract
              (c5Scope (j + 2) ++ s0) offset jump_tables (c5Mis v (j + 2))
              jump_table =
            bubble_arg_call "x" bytegen (c5Def (j + 1)) c5Contract
              (c5Scope (j + 1) ++ s0) offset jump_tables.tail
              (c5Mis v (j + 1)) jump_table := by
        simp [c5Scope, c5Mis, bubble_arg_call, bubble_resolve, c5Contract,
          c5Def, ox, hfi]
      rw [hstep]
      exact ih jump_tables.tail (by omega)
  · have hsc : c5Scope (j + 1) ++ s0 = c5Def (j + 1) :: (c5Scope j ++ s0) := by
      simp [c5Scope]
    rw [hsc]
    simp [bubble_arg_call, bubble_resolve, c5Contract, c5Def, ox, hfi]

/-- Claim C5 counterexample: a two-macro chain whose macros bind *different*
parameter names (`N1(p)` forwarding `<p>` into `N2(q)`): the resolver
re-enters with the outer name `q`, fails to find it among `N1`'s parameters,
and silently emits nothing — whereas invoking the innermost macro directly
with the literal `7` emits its PUSH.  The chain is not equivalent to the
direct invocation. -/
theorem bubble_chain_rename_counterexample :
    bubble_arg_call "q" [] ⟨"N2", [⟨some "q"⟩], []⟩ ⟨[], []⟩
        [⟨"N2", [⟨some "q"⟩], []⟩, ⟨"N1", [⟨some "p"⟩], []⟩] 0 []
        [(0, ⟨"N2", [.ArgCall "p"]⟩), (0, ⟨"N1", [.Literal 7]⟩)] [] =
      .ok ([], 0, []) ∧
    bubble_arg_call "q" [] ⟨"N2", [⟨some "q"⟩], []⟩ ⟨[], []⟩
        [⟨"N2", [⟨some "q"⟩], []⟩] 0 [] [(0, ⟨"N2", [.Literal 7]⟩)] [] =
      .ok ([push_literal 7], 0 + (push_literal 7).length / 2, []) ∧
    ([] : List String) ≠ [push_literal 7] := by
  refine ⟨rfl, rfl, by simp⟩

/-- Witness for the amended C5 at chain length 3 with literal 66. -/
theorem bubble_chain_equivalence_witness :
    bubble_arg_call "x" [] (c5Def 3) c5Contract (c5Scope 3 ++ []) 0 []
        (c5Mis 66 3) [] =
      .ok ([] ++ [push_literal 66], 0 + (push_literal 66).length / 2, []) ∧
    bubble_arg_call "x" [] (c5Def 3) c5Contract (c5Scope 3 ++ []) 0 []
        [(0, ⟨c5Name 3, [.Literal 66]⟩)] [] =
      .ok ([] ++ [push_literal 66], 0 + (push_literal 66).length / 2, []) :=
  bubble_chain_equivalence_amended 3 66 0 [] [] [] [] (by omega)

/-! ## Claim C6 -/

/-- Composition of the statement loop: a successful run over a prefix of the
IR bytes continues over the remainder from the reached state. -/
theorem recurse_loop_cons_ok
    (rec : MacroDefinition → List MacroDefinition → Nat → List JumpTable →
      List (Nat × MacroInvocation) →
      Except RunError (BytecodeRes × List MacroDefinition × List (Nat × MacroInvocation)))
    (contract : Contract) (macro_def : MacroDefinition)
    (jump_tables : List JumpTable) (i : Nat) (ir : IRByte)
    (rest : List (Nat × IRByte)) (st st' : LoopState)
    (hstep : recurse_step rec contract macro_def jump_tables i ir st = .ok st') :
    recurse_loop rec contract macro_def jump_tables ((i, ir) :: rest) st =
      recurse_loop rec contract macro_def jump_tables rest st' := by
  conv_lhs => simp only [recurse_loop]
  simp only [hstep]

/-- A failing step aborts the statement loop with the same error. -/
theorem recurse_loop_cons_err
    (rec : MacroDefinition → List MacroDefinition → Nat → List JumpTable →
      List (Nat × MacroInvocation) →
      Except RunError (BytecodeRes × List MacroDefinition × List (Nat × MacroInvocation)))
    (contract : Contract) (macro_def : MacroDefinition)
    (jump_tables : List JumpTable) (i : Nat) (ir : IRByte)
    (rest : List (Nat × IRByte)) (st : LoopState) (e : RunError)
    (hstep : recurse_step rec contract macro_def jump_tables i ir st = .error e) :
    recurse_loop rec contract macro_def jump_tables ((i, ir) :: rest) st =
      .error e := by
  conv_lhs => simp only [recurse_loop]
  simp only [hstep]

/-- The statement loop over an appended item list first runs the prefix and,
on success, continues over the suffix from the reached state. -/
theorem recurse_loop_append
    (rec : MacroDefinition → List MacroDefinition → Nat → List JumpTable →
      List (Nat × MacroInvocation) →
      Except RunError (BytecodeRes × List MacroDefinition × List (Nat × MacroInvocation)))
    (contract : Contract) (macro_def : MacroDefinition)
    (jump_tables : List JumpTable) :
    ∀ (l1 l2 : List (Nat × IRByte)) (st st1 : LoopState),
    recurse_loop rec contract macro_def jump_tables l1 st = .ok st1 →
    recurse_loop rec contract macro_def jump_tables (l1 ++ l2) st =
      recurse_loop rec contract macro_def jump_tables l2 st1 := by
  intro l1
  induction l1 with
  | nil =>
    intro l2 st st1 h
    simp only [recurse_loop, Except.ok.injEq] at h
    subst h
    rfl
  | cons item rest ih =>
    intro l2 st st1 h
    obtain ⟨i, ir⟩ := item
    rw [List.cons_append]
    cases hstep : recurse_step rec contract macro_def jump_tables i ir st with
    | error e =>
      rw [recurse_loop_cons_err rec contract macro_def jump_tables i ir rest
        st e hstep] at h
      exact absurd h (by simp)
    | ok st' =>
      rw [recurse_loop_cons_ok rec contract macro_def jump_tables i ir rest
        st st' hstep] at h
      rw [recurse_loop_cons_ok rec contract macro_def jump_tables i ir
        (rest ++ l2) st st' hstep]
      exact ih l2 st' st1 h

/-- Claim C6 (amended): when the recursive expansion of a nested macro
invocation — at any position `pre.length` of the enclosing macro's body,
reached after the loop processed the preceding statements successfully —
fails with a structured codegen error, the enclosing `recurse_bytecode` call
fails too, and its error has kind `FailedMacroRecursion`: the child's error
is *replaced* at the enclosing frame (the `if let Ok(res)` pattern discards
it), so the original error kind does not itself propagate. -/
theorem failed_macro_recursion_amended (fuel : Nat) (contract : Contract)
    (parent : MacroDefinition) (mi : MacroInvocation)
    (inner_def : MacroDefinition) (scope : List MacroDefinition) (offset : Nat)
    (jump_tables : List JumpTable) (mis : List (Nat × MacroInvocation))
    (pre post : List Statement) (st : LoopState) (e : CodegenError)
    (hb : parent.statements = pre ++ Statement.MacroInvocation mi :: post)
    (hpre : recurse_loop (recurse_bytecode fuel (some contract)) contract
      parent jump_tables (parent.to_irbytecode.enum.take pre.length)
      { bytes := [], offset := offset, jump_table := [], jump_indices := [],
        scope := scope, mis := mis } = .ok st)
    (hf : contract.find_macro_by_name mi.macro_name = some inner_def)
    (hrec : recurse_bytecode fuel (some contract) inner_def
      (inner_def :: st.scope) st.offset jump_tables
      ((pre.length, mi) :: st.mis) = .error (.cg e)) :
    recurse_bytecode (fuel + 1) (some contract) parent scope offset
        jump_tables mis =
      .error (.cg { kind := .FailedMacroRecursion }) := by
  have hmap : parent.to_irbytecode =
      pre.map lowerStatement ++
        IRByte.Statement (.MacroInvocation mi) :: post.map lowerStatement := by
    unfold MacroDefinition.to_irbytecode
    rw [hb, List.map_append, List.map_cons]
    rfl
  have henum : parent.to_irbytecode.enum =
      (pre.map lowerStatement).enum ++
        (pre.length, IRByte.Statement (.MacroInvocation mi)) ::
          List.enumFrom (pre.length + 1) (post.map lowerStatement) := by
    rw [hmap, List.enum_append, List.enumFrom_cons, List.length_map]
  have htake : parent.to_irbytecode.enum.take pre.length =
      (pre.map lowerStatement).enum := by
    rw [henum]
    exact List.take_left' (by rw [List.enum_length, List.length_map])
  rw [htake] at hpre
  have hstep : recurse_step (recurse_bytecode fuel (some contract)) contract
      parent jump_tables pre.length
      (IRByte.Statement (.MacroInvocation mi)) st =
      .error (.cg { kind := .FailedMacroRecursion }) := by
    simp only [recurse_step, hf, hrec]
  simp only [recurse_bytecode]
  rw [henum,
    recurse_loop_append (recurse_bytecode fuel (some contract)) contract
      parent jump_tables (pre.map lowerStatement).enum _ _ st hpre,
    recurse_loop_cons_err (recurse_bytecode fuel (some contract)) contract
      parent jump_tables pre.length (IRByte.Statement (.MacroInvocation mi))
      _ st _ hstep]

/-- A macro referencing an undefined constant. -/
def c6Inner : MacroDefinition := ⟨"A", [], [.Constant "X"]⟩

/-- A `MAIN` macro that invokes `A()`. -/
def c6MainDef : MacroDefinition := ⟨"MAIN", [], [.MacroInvocation ⟨"A", []⟩]⟩

/-- Contract tree in which the nested expansion of `A` fails with
`MissingConstantDefinition`. -/
def c6Contract : Contract := ⟨[c6MainDef, c6Inner], []⟩

/-- Claim C6 counterexample: the nested expansion of `A` fails with
`MissingConstantDefinition`, but the top-level generator entry point reports
`FailedMacroRecursion` — the original child error does not propagate to the
top level. -/
theorem failed_macro_recursion_counterexample :
    recurse_bytecode 1 (some c6Contract) c6Inner [c6Inner, c6MainDef] 0 []
        [(0, ⟨"A", []⟩)] =
      .error (.cg { kind := .MissingConstantDefinition }) ∧
    roll 2 (some c6Contract) =
      .error (.cg { kind := .FailedMacroRecursion }) ∧
    CodegenErrorKind.FailedMacroRecursion ≠
      CodegenErrorKind.MissingConstantDefinition := by
  refine ⟨rfl, rfl, by decide⟩

/-- A `MAIN` macro whose failing invocation of `A` sits between two other
statements. -/
def c6wMain : MacroDefinition :=
  ⟨"MAIN", [], [.Opcode "00", .MacroInvocation ⟨"A", []⟩, .Opcode "01"]⟩

/-- Contract tree of the C6 witness. -/
def c6wContract : Contract := ⟨[c6wMain, c6Inner], []⟩

/-- The loop state after the statement preceding the invocation. -/
def c6wState : LoopState :=
  { bytes := ["00"], offset := 1, jump_table := [], jump_indices := [],
    scope := [c6wMain], mis := [] }

/-- Witness for the amended C6: the failing invocation is the second of three
body statements, and the enclosing expansion reports
`FailedMacroRecursion`. -/
theorem failed_macro_recursion_witness :
    recurse_bytecode 2 (some c6wContract) c6wMain [c6wMain] 0 [] [] =
      .error (.cg { kind := .FailedMacroRecursion }) :=
  failed_macro_recursion_amended 1 c6wContract c6wMain ⟨"A", []⟩ c6Inner
    [c6wMain] 0 [] [] [.Opcode "00"] [.Opcode "01"] c6wState
    { kind := .MissingConstantDefinition } rfl rfl rfl rfl

/-! ## Claim C4: digit lemmas -/

theorem digitsCore_zero (b f : Nat) : digitsCore b f 0 = [] := by
  cases f <;> rfl

theorem digitsCore_stable (b : Nat) (hb : 2 ≤ b) :
    ∀ f₁ f₂ n, n ≤ f₁ → n ≤ f₂ → digitsCore b f₁ n = digitsCore b f₂ n := by
  intro f₁
  induction f₁ with
  | zero =>
    intro f₂ n h1 _h2
    have : n = 0 := by omega
    subst this
    simp [digitsCore_zero]
  | succ f ih =>
    intro f₂ n h1 h2
    match n, f₂ with
    | 0, f₂ => simp [digitsCore_zero]
    | m + 1, 0 => omega
    | m + 1, g + 1 =>
      show digitsCore b f ((m + 1) / b) ++ [(m + 1) % b] =
        digitsCore b g ((m + 1) / b) ++ [(m + 1) % b]
      have hdiv : (m + 1) / b < m + 1 := Nat.div_lt_self (by omega) (by omega)
      rw [ih g ((m + 1) / b) (by omega) (by omega)]

theorem digitsBE_zero (b : Nat) : digitsBE b 0 = [] := rfl

theorem digitsBE_pos (b n : Nat) (hb : 2 ≤ b) (hn : 0 < n) :
    digitsBE b n = digitsBE b (n / b) ++ [n % b] := by
  obtain ⟨m, rfl⟩ : ∃ m, n = m + 1 := ⟨n - 1, by omega⟩
  show digitsCore b (m + 1) (m + 1) = _
  have hdiv : (m + 1) / b < m + 1 := Nat.div_lt_self (by omega) (by omega)
  show digitsCore b m ((m + 1) / b) ++ [(m + 1) % b] = _
  rw [digitsCore_stable b hb m ((m + 1) / b) ((m + 1) / b) (by omega) le_rfl]
  rfl

theorem digitsBE_digit_lt (b : Nat) (hb : 2 ≤ b) :
    ∀ n, ∀ d ∈ digitsBE b n, d < b := by
  intro n
  induction n using Nat.strong_induction_on with
  | _ n ih =>
    rcases Nat.eq_zero_or_pos n with rfl | hn
    · simp [digitsBE_zero]
    · rw [digitsBE_pos b n hb hn]
      intro d hd
      rcases List.mem_append.mp hd with h | h
      · exact ih (n / b) (Nat.div_lt_self hn (by omega)) d h
      · simp at h
        subst h
        exact Nat.mod_lt n (by omega)

theorem digitsBE_length_le (b : Nat) (hb : 2 ≤ b) :
    ∀ n k, n < b ^ k → (digitsBE b n).length ≤ k := by
  intro n
  induction n using Nat.strong_induction_on with
  | _ n ih =>
    intro k hk
    rcases Nat.eq_zero_or_pos n with rfl | hn
    · simp [digitsBE_zero]
    · match k with
      | 0 => simp at hk; omega
      | j + 1 =>
        rw [digitsBE_pos b n hb hn]
        have hdiv : n / b < b ^ j := by
          rw [Nat.div_lt_iff_lt_mul (by omega : 0 < b)]
          calc n < b ^ (j + 1) := hk
          _ = b ^ j * b := by rw [pow_succ]
        have := ih (n / b) (Nat.div_lt_self hn (by omega)) j hdiv
        simp only [List.length_append, List.length_cons, List.length_nil]
        omega

theorem digitsBE_lt_pow (b : Nat) (hb : 2 ≤ b) :
    ∀ n, n < b ^ (digitsBE b n).length := by
  intro n
  induction n using Nat.strong_induction_on with
  | _ n ih =>
    rcases Nat.eq_zero_or_pos n with rfl | hn
    · simp [digitsBE_zero]
    · rw [digitsBE_pos b n hb hn]
      simp only [List.length_append, List.length_cons, List.length_nil]
      have ihd := ih (n / b) (Nat.div_lt_self hn (by omega))
      have hmod : n % b < b := Nat.mod_lt n (by omega)
      have h1 : n < b * (n / b + 1) := by
        have := Nat.div_add_mod n b
        rw [Nat.mul_succ]
        omega
      have h2 : b * b ^ (digitsBE b (n / b)).length =
          b ^ ((digitsBE b (n / b)).length + 1) := by
        rw [pow_succ, Nat.mul_comm]
      calc n < b * (n / b + 1) := h1
      _ ≤ b * b ^ (digitsBE b (n / b)).length :=
          Nat.mul_le_mul_left b (by omega)
      _ = b ^ ((digitsBE b (n / b)).length + 1) := h2

theorem digitsBE_pow_le (b : Nat) (hb : 2 ≤ b) :
    ∀ n, 0 < n → b ^ ((digitsBE b n).length - 1) ≤ n := by
  intro n
  induction n using Nat.strong_induction_on with
  | _ n ih =>
    intro hn
    rw [digitsBE_pos b n hb hn]
    simp only [List.length_append, List.length_cons, List.length_nil]
    rcases Nat.eq_zero_or_pos (n / b) with hz | hpos
    · rw [hz]
      simp [digitsBE_zero]
      omega
    · have hlen : 1 ≤ (digitsBE b (n / b)).length := by
        rw [digitsBE_pos b (n / b) hb hpos]
        simp
      have ihd := ih (n / b) (Nat.div_lt_self hn (by omega)) hpos
      have : b ^ ((digitsBE b (n / b)).length + 1 - 1) =
          b ^ ((digitsBE b (n / b)).length - 1) * b := by
        rw [← pow_succ]
        congr 1
        omega
      rw [show (digitsBE b (n / b)).length + 1 + 0 - 1 =
        (digitsBE b (n / b)).length + 1 - 1 from by omega, this]
      calc b ^ ((digitsBE b (n / b)).length - 1) * b ≤ (n / b) * b :=
            Nat.mul_le_mul_right b ihd
      _ ≤ n := Nat.div_mul_le_self n b

/-- Value of a big-endian digit list in base `b`. -/
def digitsVal (b : Nat) (l : List Nat) : Nat :=
  l.foldl (fun a d => b * a + d) 0

theorem foldl_digits_append (b a : Nat) (xs : List Nat) (d : Nat) :
    (xs ++ [d]).foldl (fun a d => b * a + d) a =
      b * (xs.foldl (fun a d => b * a + d) a) + d := by
  rw [List.foldl_append]
  rfl

theorem digitsVal_digitsBE (b : Nat) (hb : 2 ≤ b) :
    ∀ n, digitsVal b (digitsBE b n) = n := by
  intro n
  induction n using Nat.strong_induction_on with
  | _ n ih =>
    rcases Nat.eq_zero_or_pos n with rfl | hn
    · rfl
    · rw [digitsBE_pos b n hb hn]
      unfold digitsVal
      rw [foldl_digits_append]
      have := ih (n / b) (Nat.div_lt_self hn (by omega))
      unfold digitsVal at this
      rw [this]
      have := Nat.div_add_mod n b
      omega

/-! ## Claim C4: literal-push lemmas -/

/-- Minimum byte width of a literal: the number of base-256 digits, at
least 1 (zero is pushed as one byte `00`). -/
def literalByteWidth (l : Nat) : Nat := max 1 (digitsBE 256 l).length

theorem bytesToHexChars_length (bs : List Nat) :
    (bytesToHexChars bs).length = 2 * bs.length := by
  induction bs with
  | nil => rfl
  | cons v rest ih =>
    show (bytesToHexChars rest).length + 1 + 1 = 2 * (rest.length + 1)
    omega

theorem hexCharVal_hexChar : ∀ d, d < 16 → hexCharVal (hexChar d) = d := by
  decide

theorem bytesToHexChars_val (bs : List Nat) (h : ∀ v ∈ bs, v < 256) :
    ∀ a, (bytesToHexChars bs).foldl (fun a c => 16 * a + hexCharVal c) a =
      bs.foldl (fun a v => 256 * a + v) a := by
  induction bs with
  | nil => intro a; rfl
  | cons v rest ih =>
    intro a
    have hv : v < 256 := h v (by simp)
    show (bytesToHexChars rest).foldl (fun a c => 16 * a + hexCharVal c)
        (16 * (16 * a + hexCharVal (hexChar (v / 16))) +
          hexCharVal (hexChar (v % 16))) = _
    rw [hexCharVal_hexChar (v / 16) (by omega), hexCharVal_hexChar (v % 16) (by omega)]
    have harg : 16 * (16 * a + v / 16) + v % 16 = 256 * a + v := by omega
    rw [harg, ih (fun w hw => h w (by simp [hw]))]
    rfl

theorem bytes32_length (l : Nat) :
    (bytes32_to_string l).length = 2 * literalByteWidth l := by
  unfold bytes32_to_string literalByteWidth
  cases hd : digitsBE 256 l with
  | nil => rfl
  | cons v rest =>
    show (bytesToHexChars (v :: rest)).length = 2 * max 1 (v :: rest).length
    rw [bytesToHexChars_length]
    simp only [List.length_cons]
    omega

theorem digitsBE_nil_eq_zero (l : Nat) (hd : digitsBE 256 l = []) : l = 0 := by
  by_contra h
  rw [digitsBE_pos 256 l (by omega) (Nat.pos_of_ne_zero h)] at hd
  simp at hd

theorem bytes32_val (l : Nat) : hexStrValue (bytes32_to_string l) = l := by
  unfold bytes32_to_string hexStrValue
  cases hd : digitsBE 256 l with
  | nil =>
    rw [digitsBE_nil_eq_zero l hd]
    rfl
  | cons v rest =>
    show (bytesToHexChars (v :: rest)).foldl (fun a c => 16 * a + hexCharVal c) 0 = l
    rw [bytesToHexChars_val (v :: rest)
      (by rw [← hd]; exact digitsBE_digit_lt 256 (by omega) l) 0]
    have := digitsVal_digitsBE 256 (by omega) l
    unfold digitsVal at this
    rw [hd] at this
    exact this

theorem byteWidth_eq_size (l : Nat) :
    literalByteWidth l = max 1 ((Nat.size l + 7) / 8) := by
  rcases Nat.eq_zero_or_pos l with rfl | hl
  · simp [literalByteWidth, digitsBE_zero, Nat.size_zero]
  · have hL1 : 1 ≤ (digitsBE 256 l).length := by
      rw [digitsBE_pos 256 l (by omega) hl]
      simp
    have hub : l < 256 ^ (digitsBE 256 l).length := digitsBE_lt_pow 256 (by omega) l
    have hlb : 256 ^ ((digitsBE 256 l).length - 1) ≤ l :=
      digitsBE_pow_le 256 (by omega) l hl
    have h256 : ∀ k : Nat, (256 : Nat) ^ k = 2 ^ (8 * k) := by
      intro k
      rw [show (256 : Nat) = 2 ^ 8 from rfl, ← pow_mul]
    have hs_ub : Nat.size l ≤ 8 * (digitsBE 256 l).length :=
      Nat.size_le.mpr (by rw [← h256]; exact hub)
    have hs_lb : 8 * ((digitsBE 256 l).length - 1) < Nat.size l :=
      Nat.lt_size.mpr (by rw [← h256]; exact hlb)
    unfold literalByteWidth
    have hmax1 : max 1 (digitsBE 256 l).length = (digitsBE 256 l).length := by omega
    have hmax2 : max 1 ((Nat.size l + 7) / 8) = (Nat.size l + 7) / 8 := by omega
    rw [hmax1, hmax2]
    omega

theorem formatHexPad_two (m : Nat) (h16 : 16 ≤ m) (h256 : m < 256) :
    formatHexPad 2 m = ⟨byteHexChars m⟩ := by
  have hd1 : digitsBE 16 (m / 16) = [m / 16] := by
    rw [digitsBE_pos 16 (m / 16) (by omega) (by omega)]
    rw [show m / 16 / 16 = 0 from by omega]
    rw [digitsBE_zero]
    rw [show m / 16 % 16 = m / 16 from by omega]
    rfl
  have hd : digitsBE 16 m = [m / 16, m % 16] := by
    rw [digitsBE_pos 16 m (by omega) (by omega), hd1]
    rfl
  unfold formatHexPad natToHex
  rw [if_neg (by omega), hd]
  rfl

theorem literalByteWidth_le_32 (l : Nat) (h : l < 2 ^ 256) :
    literalByteWidth l ≤ 32 := by
  have : (digitsBE 256 l).length ≤ 32 := by
    apply digitsBE_length_le 256 (by omega) l 32
    calc l < 2 ^ 256 := h
    _ = 256 ^ 32 := by norm_num
  unfold literalByteWidth
  omega

/-! ## Claim C4 -/

/-- Claim C4: for every literal of at most 32 bytes, the inlined fragment
(`push_literal`, the exact expression at the three literal-inlining sites) is
one PUSH instruction: its opcode byte is `0x5F + N` where
`N = max 1 ⌈bit_width(l) / 8⌉` is the minimum byte width of the literal,
followed by exactly `N` operand bytes (`2N` hex characters) whose value is
the literal itself. -/
theorem literal_push_minimality (l : Nat) (h : l < 2 ^ 256) :
    push_literal l = ⟨byteHexChars (95 + literalByteWidth l)⟩ ++ bytes32_to_string l ∧
    (bytes32_to_string l).length = 2 * literalByteWidth l ∧
    hexStrValue (bytes32_to_string l) = l ∧
    literalByteWidth l = max 1 ((Nat.size l + 7) / 8) := by
  refine ⟨?_, bytes32_length l, bytes32_val l, byteWidth_eq_size l⟩
  unfold push_literal
  rw [bytes32_length l, Nat.mul_div_cancel_left _ (by omega : 0 < 2)]
  have h32 := literalByteWidth_le_32 l h
  have h1 : 1 ≤ literalByteWidth l := le_max_left 1 _
  rw [formatHexPad_two (95 + literalByteWidth l) (by omega) (by omega)]

/-- Witness for C4 at the two-byte literal `0x100`. -/
theorem literal_push_minimality_witness :
    push_literal 256 = ⟨byteHexChars (95 + literalByteWidth 256)⟩ ++
      bytes32_to_string 256 ∧
    (bytes32_to_string 256).length = 2 * literalByteWidth 256 ∧
    hexStrValue (bytes32_to_string 256) = 256 ∧
    literalByteWidth 256 = max 1 ((Nat.size 256 + 7) / 8) :=
  literal_push_minimality 256 (by norm_num)

/-! ## Claim C7: offset accounting -/

theorem sum_even (l : List String) (h : ∀ b ∈ l, b.length % 2 = 0) :
    (l.map String.length).sum % 2 = 0 := by
  induction l with
  | nil => rfl
  | cons b rest ih =>
    simp only [List.map_cons, List.sum_cons]
    have hb := h b (by simp)
    have hr := ih (fun x hx => h x (by simp [hx]))
    omega

/-- Byte accounting for one `bubble_resolve` call, parametric in the
behaviour of the recursion continuation. -/
theorem bubble_resolve_bytes_spec (arg_name : String) (bytegen : List String)
    (macro_def : MacroDefinition) (contract : Contract) (offset : Nat)
    (mis : List (Nat × MacroInvocation)) (jump_table : JumpTable)
    (onArgCall : (Nat × MacroInvocation) → List (Nat × MacroInvocation) →
      Except RunError (List String × Nat × JumpTable))
    (bg : List String) (off : Nat) (jt : JumpTable)
    (hk : ∀ mi rest bg' off' jt', onArgCall mi rest = .ok (bg', off', jt') →
      ∃ tail, bg' = bytegen ++ tail ∧
        ((∀ b ∈ tail, b.length % 2 = 0) →
          2 * off' = 2 * offset + (tail.map String.length).sum))
    (h : bubble_resolve arg_name bytegen macro_def contract offset mis
      jump_table onArgCall = .ok (bg, off, jt)) :
    ∃ tail, bg = bytegen ++ tail ∧
      ((∀ b ∈ tail, b.length % 2 = 0) →
        2 * off = 2 * offset + (tail.map String.length).sum) := by
  unfold bubble_resolve at h
  split at h
  · -- constant literal
    simp only [Except.ok.injEq, Prod.mk.injEq] at h
    obtain ⟨h1, h2, _⟩ := h
    refine ⟨_, h1.symm, fun he => ?_⟩
    have hbe := he _ (List.mem_singleton_self _)
    simp only [List.map_cons, List.map_nil, List.sum_cons, List.sum_nil]
    omega
  · exact absurd h (by simp)
  · -- not a constant
    split at h
    · -- opcode
      simp only [Except.ok.injEq, Prod.mk.injEq] at h
      obtain ⟨h1, h2, _⟩ := h
      refine ⟨_, h1.symm, fun he => ?_⟩
      have hbe := he _ (List.mem_singleton_self _)
      simp only [List.map_cons, List.map_nil, List.sum_cons, List.sum_nil]
      omega
    · split at h
      · -- an invocation is on the stack
        split at h
        · -- bound parameter
          split at h
          · -- literal argument
            simp only [Except.ok.injEq, Prod.mk.injEq] at h
            obtain ⟨h1, h2, _⟩ := h
            refine ⟨_, h1.symm, fun he => ?_⟩
            have hbe := he _ (List.mem_singleton_self _)
            simp only [List.map_cons, List.map_nil, List.sum_cons, List.sum_nil]
            omega
          · -- further arg call: continuation
            exact hk _ _ _ _ _ h
          · -- ident argument: nothing emitted
            simp only [Except.ok.injEq, Prod.mk.injEq] at h
            obtain ⟨h1, h2, _⟩ := h
            refine ⟨[], by simp [← h1], fun _ => ?_⟩
            simp only [List.map_nil, List.sum_nil]
            omega
          · -- no actual argument: nothing emitted
            simp only [Except.ok.injEq, Prod.mk.injEq] at h
            obtain ⟨h1, h2, _⟩ := h
            refine ⟨[], by simp [← h1], fun _ => ?_⟩
            simp only [List.map_nil, List.sum_nil]
            omega
        · -- not a parameter: nothing emitted
          simp only [Except.ok.injEq, Prod.mk.injEq] at h
          obtain ⟨h1, h2, _⟩ := h
          refine ⟨[], by simp [← h1], fun _ => ?_⟩
          simp only [List.map_nil, List.sum_nil]
          omega
      · -- empty invocation stack: label fallthrough
        simp only [Except.ok.injEq, Prod.mk.injEq] at h
        obtain ⟨h1, h2, _⟩ := h
        refine ⟨_, h1.symm, fun _ => ?_⟩
        have h6 : ("61xxxx" : String).length = 6 := rfl
        simp only [List.map_cons, List.map_nil, List.sum_cons, List.sum_nil]
        omega

/-- Byte accounting for `bubble_arg_call`: on success it appends some tail of
fragments and, provided those fragments have even hex length, advances the
offset by exactly half their total hex length. -/
theorem bubble_bytes_spec :
    ∀ (scope : List MacroDefinition) (arg_name : String) (bytegen : List String)
      (macro_def : MacroDefinition) (contract : Contract) (offset : Nat)
      (jump_tables : List JumpTable) (mis : List (Nat × MacroInvocation))
      (jump_table : JumpTable) (bg : List String) (off : Nat) (jt : JumpTable),
    bubble_arg_call arg_name bytegen macro_def contract scope offset
      jump_tables mis jump_table = .ok (bg, off, jt) →
    ∃ tail, bg = bytegen ++ tail ∧
      ((∀ b ∈ tail, b.length % 2 = 0) →
        2 * off = 2 * offset + (tail.map String.length).sum) := by
  intro scope
  induction scope with
  | nil =>
    intro arg_name bytegen macro_def contract offset jump_tables mis
      jump_table bg off jt h
    refine bubble_resolve_bytes_spec _ _ _ _ _ _ _ _ _ _ _ ?_ h
    intro mi rest bg' off' jt' hk
    exact absurd hk (by simp)
  | cons top rest ih =>
    intro arg_name bytegen macro_def contract offset jump_tables mis
      jump_table bg off jt h
    refine bubble_resolve_bytes_spec _ _ _ _ _ _ _ _ _ _ _ ?_ h
    intro mi rest' bg' off' jt' hk
    match hr : rest, hk with
    | [], hk => exact absurd hk (by simp)
    | bubbled :: rest2, hk =>
      simp only at hk
      split at hk
      · exact ih _ _ _ _ _ _ _ _ _ _ _ hk
      · exact ih _ _ _ _ _ _ _ _ _ _ _ hk

/-- Byte accounting for one statement-loop step: any fragments appended
advance the offset by half their total hex length, provided they have even
hex length. -/
theorem recurse_step_bytes_spec
    (rec : MacroDefinition → List MacroDefinition → Nat → List JumpTable →
      List (Nat × MacroInvocation) →
      Except RunError (BytecodeRes × List MacroDefinition × List (Nat × MacroInvocation)))
    (contract : Contract) (macro_def : MacroDefinition)
    (jump_tables : List JumpTable) (index : Nat) (ir : IRByte)
    (st st' : LoopState)
    (h : recurse_step rec contract macro_def jump_tables index ir st = .ok st') :
    ∃ tail, st'.bytes = st.bytes ++ tail ∧
      ((∀ b ∈ tail, b.length % 2 = 0) →
        2 * st'.offset = 2 * st.offset + (tail.map String.length).sum) := by
  unfold recurse_step at h
  split at h
  · -- Bytes
    simp only [Except.ok.injEq] at h
    subst h
    refine ⟨_, rfl, fun he => ?_⟩
    have hbe := he _ (List.mem_singleton_self _)
    simp only [List.map_cons, List.map_nil, List.sum_cons, List.sum_nil]
    omega
  · -- Constant
    split at h
    · exact absurd h (by simp)
    · -- literal
      simp only [Except.ok.injEq] at h
      subst h
      refine ⟨_, rfl, fun he => ?_⟩
      have hbe := he _ (List.mem_singleton_self _)
      simp only [List.map_cons, List.map_nil, List.sum_cons, List.sum_nil]
      omega
    · exact absurd h (by simp)
  · -- Statement
    split at h
    · -- macro invocation
      split at h
      · exact absurd h (by simp)
      · -- found the inner macro: case on the recursive result
        split at h
        · -- child ok
          simp only [Except.ok.injEq] at h
          subst h
          refine ⟨_, rfl, fun he => ?_⟩
          have hse := sum_even _ he
          simp only
          omega
        · exact absurd h (by simp)
        · exact absurd h (by simp)
        · exact absurd h (by simp)
    · -- label
      simp only [Except.ok.injEq] at h
      subst h
      refine ⟨_, rfl, fun _ => ?_⟩
      have h2 : ("5b" : String).length = 2 := rfl
      simp only [List.map_cons, List.map_nil, List.sum_cons, List.sum_nil]
      omega
    · -- label call
      simp only [Except.ok.injEq] at h
      subst h
      refine ⟨_, rfl, fun _ => ?_⟩
      have h6 : ("61xxxx" : String).length = 6 := rfl
      simp only [List.map_cons, List.map_nil, List.sum_cons, List.sum_nil]
      omega
    · exact absurd h (by simp)
  · -- ArgCall: bubbling
    split at h
    · exact absurd h (by simp)
    · rename_i bub bg off jt hbub
      simp only [Except.ok.injEq] at h
      subst h
      obtain ⟨tail, hb, hoff⟩ :=
        bubble_bytes_spec st.scope _ st.bytes macro_def contract st.offset
          jump_tables st.mis st.jump_table bg off jt hbub
      exact ⟨tail, hb, hoff⟩

/-- Byte accounting across the statement loop: if the loop succeeds and every
fragment of the final state has even hex length, the offset advanced by
exactly half the total hex length of the fragments appended. -/
theorem recurse_loop_bytes_spec
    (rec : MacroDefinition → List MacroDefinition → Nat → List JumpTable →
      List (Nat × MacroInvocation) →
      Except RunError (BytecodeRes × List MacroDefinition × List (Nat × MacroInvocation)))
    (contract : Contract) (macro_def : MacroDefinition)
    (jump_tables : List JumpTable) :
    ∀ (items : List (Nat × IRByte)) (st st' : LoopState),
    recurse_loop rec contract macro_def jump_tables items st = .ok st' →
    (∀ b ∈ st'.bytes, b.length % 2 = 0) →
    ∃ tail, st'.bytes = st.bytes ++ tail ∧
      2 * st'.offset = 2 * st.offset + (tail.map String.length).sum := by
  intro items
  induction items with
  | nil =>
    intro st st' h he
    simp only [recurse_loop, Except.ok.injEq] at h
    subst h
    exact ⟨[], by simp, by simp⟩
  | cons item rest ih =>
    intro st st' h he
    obtain ⟨index, ir⟩ := item
    unfold recurse_loop at h
    split at h
    · exact absurd h (by simp)
    · rename_i st1 hstep
      obtain ⟨t2, hb2, hoff2⟩ := ih st1 st' h he
      obtain ⟨t1, hb1, hoff1⟩ :=
        recurse_step_bytes_spec rec contract macro_def jump_tables index ir
          st st1 hstep
      have he1 : ∀ b ∈ t1, b.length % 2 = 0 := by
        intro b hb
        apply he
        rw [hb2, hb1]
        exact List.mem_append.mpr (Or.inl (List.mem_append.mpr (Or.inr hb)))
      refine ⟨t1 ++ t2, ?_, ?_⟩
      · rw [hb2, hb1, List.append_assoc]
      · rw [List.map_append, List.sum_append]
        have := hoff1 he1
        omega

/-! ## Claim C7 -/

/-- A child macro whose matched backward jump is patched with a destination
of five hex characters (label offset 70000 ≥ 2^16), leaving an odd-length
fragment. -/
def c7Inner : MacroDefinition := ⟨"C", [], [.Label "l", .LabelCall "l"]⟩

/-- A `MAIN` macro invoking the child once. -/
def c7MainDef : MacroDefinition := ⟨"MAIN", [], [.MacroInvocation ⟨"C", []⟩]⟩

/-- The contract tree of the C7 counterexample. -/
def c7Contract : Contract := ⟨[c7MainDef, c7Inner], []⟩

/-- Claim C7 counterexample: in a frame entered with offset `k = 70000`,
after the single IR byte (the invocation of `C`) has been processed the
loop state holds fragments `["5b", "6111170"]` of total hex length 9 — the
patched jump destination `11170` has five hex characters — while the offset
advanced by `⌊9/2⌋ = 4`; the offset does *not* equal `k` plus half the total
hex length of the emitted fragments. -/
theorem offset_invariant_counterexample :
    (recurse_loop (recurse_bytecode 3 (some c7Contract)) c7Contract c7MainDef
        [] (c7MainDef.to_irbytecode.enum.take 1)
        { bytes := [], offset := 70000, jump_table := [], jump_indices := [],
          scope := [c7MainDef], mis := [] }).map
      (fun st => (st.bytes, st.offset,
        2 * st.offset == 2 * 70000 + (st.bytes.map String.length).sum)) =
    .ok (["5b", "6111170"], 70004, false) := rfl

/-- Claim C7 (amended): within a single `recurse_bytecode` call entered with
offset `k`, after each IR byte has been processed the internal offset equals
`k` plus half the total hex-character length of the fragments emitted so far
in that frame, *provided* every emitted fragment has even hex length (which
can fail only when a nested frame patched a jump destination of more than
four hex characters, i.e. a label offset of at least 2^16). -/
theorem offset_invariant_amended (fuel : Nat) (ast : Option Contract)
    (contract : Contract) (macro_def : MacroDefinition)
    (scope : List MacroDefinition) (mis : List (Nat × MacroInvocation))
    (jump_tables : List JumpTable) (k j : Nat) (st : LoopState)
    (h : recurse_loop (recurse_bytecode fuel ast) contract macro_def
      jump_tables (macro_def.to_irbytecode.enum.take j)
      { bytes := [], offset := k, jump_table := [], jump_indices := [],
        scope := scope, mis := mis } = .ok st)
    (he : ∀ b ∈ st.bytes, b.length % 2 = 0) :
    2 * st.offset = 2 * k + (st.bytes.map String.length).sum := by
  obtain ⟨tail, hb, hoff⟩ :=
    recurse_loop_bytes_spec (recurse_bytecode fuel ast) contract macro_def
      jump_tables (macro_def.to_irbytecode.enum.take j) _ st h he
  simp only [List.nil_append] at hb
  rw [hb]
  simpa using hoff

/-- A macro used by the C7 witness: a label declaration followed by a
`stop`. -/
def c7wDef : MacroDefinition := ⟨"MAIN", [], [.Label "l", .Opcode "00"]⟩

/-- Contract tree of the C7 witness. -/
def c7wContract : Contract := ⟨[c7wDef], []⟩

/-- The loop state after both IR bytes of the witness macro, entered at
offset 5. -/
def c7wState : LoopState :=
  { bytes := ["5b", "00"], offset := 7,
    jump_table := [], jump_indices := [("l", 5)],
    scope := [c7wDef], mis := [] }

/-- Witness for the amended C7: a frame entered at offset 5 emits `5b` and
`00` and ends with offset `7 = 5 + 4/2`. -/
theorem offset_invariant_witness :
    2 * c7wState.offset = 2 * 5 + (c7wState.bytes.map String.length).sum :=
  offset_invariant_amended 1 (some c7wContract) c7wContract c7wDef
    [c7wDef] [] [] 5 2 c7wState rfl (by decide)
